import Mathlib

/-!
# Verification of the `elegance` pretty-printing engine

Shallow embedding of `src/core.rs`, `src/helper.rs` and `src/render.rs`
(crate `elegance`): a two-stage scanner/renderer pretty printer after
Chitil's "Linear, bounded, functional pretty-printing".

Modelling conventions:
* The sink is specialised to the `String` renderer (`impl Render for String`),
  whose buffer is modelled as a `List Char` and whose error type is `()`,
  never produced.  Operations that can only fail through the sink are
  therefore total; operations that can panic (`expect` / `assert!`) return
  `Option`.
* `usize` widths and positions are `Nat` (Rust `saturating_sub` is `Nat`
  subtraction), `isize` indents are `Int`.
* The Rust struct `Printer` keeps scanner and renderer fields in one struct;
  here the renderer fields (`renderer`, `remaining`, `render_stack`,
  `pending_indent`, plus the shared `line_width`) are grouped in `RState`
  so that the pure renderer functions act on them alone.
* `VecDeque` is a `List` with the *front* at the head: `pop_front` is `tail`,
  `push_back` appends, `back_mut` edits the last element (`addToBack`).
  The `Vec` stacks (`indent`, `render_stack`) have their *top* at the head.
* The `while` loop of `Printer::prune` is the structurally recursive
  `prune_go` on the deque list; `position` does not change during the loop.
-/

namespace Elegance

/-- `Token` from `core.rs`: a buffered directive.  `Text` carries the string
(the paired width lives next to the token, as in `Vec<(Token, usize)>`),
`Break` carries the absolute indent frozen at scan time, and `Group` carries
the nested children.  `OutGroup` is the child list `List (Token × Nat)`. -/
inductive Token : Type where
  | text (s : String) : Token
  | brk (indent : Nat) : Token
  | group (tokens : List (Token × Nat)) : Token
deriving Repr

/-- `RenderFrame` from `core.rs`: the per-group decision recorded on the
render stack, `Fits` or `Break { consistent }`. -/
inductive RenderFrame : Type where
  | fits : RenderFrame
  | brk (consistent : Bool) : RenderFrame
deriving DecidableEq, Repr

/-- The renderer half of the Rust `Printer` struct (plus the shared
`line_width`), with the `String` sink's buffer as a `List Char`. -/
structure RState : Type where
  line_width : Nat
  output : List Char
  remaining : Nat
  render_stack : List RenderFrame
  pending_indent : Nat
deriving Repr

/-- `Printer::MAX_WIDTH`. -/
def MAX_WIDTH : Nat := 65536

/-- `Render::write_str` for the `String` sink (`String::push_str`). -/
def write_str (out : List Char) (s : String) : List Char :=
  out ++ s.data

/-- The `String` sink's overridden `Render::write_spaces`: `reserve` (no
observable effect on contents) then `extend(iter::repeat(' ').take(n))`. -/
def write_spaces (out : List Char) (n : Nat) : List Char :=
  (List.replicate n ' ').foldl (fun acc c => acc ++ [c]) out

/-- Rust `str::repeat`: `n` concatenated copies of `s`. -/
def str_repeat (s : String) : Nat → String
  | 0 => ""
  | n + 1 => s ++ str_repeat s n

/-- The default implementation of `Render::write_spaces` in the trait:
`write_str(&" ".repeat(n))`. -/
def write_spaces_default (out : List Char) (n : Nat) : List Char :=
  write_str out (str_repeat " " n)

/-- `Printer::render_text`. -/
def render_text (st : RState) (s : String) (width : Nat) : RState :=
  let st :=
    if 0 < st.pending_indent then
      { st with output := write_spaces st.output st.pending_indent,
                pending_indent := 0 }
    else st
  { st with output := write_str st.output s,
            remaining := st.remaining - width }

/-- The local `fits` test of `Printer::render_break` (`core.rs:205-213`):
consult the top of the render stack, defaulting to `Break { consistent:
false }` when the stack is empty. -/
def break_fits (st : RState) (width : Nat) : Bool :=
  match st.render_stack.head?.getD (RenderFrame.brk false) with
  | RenderFrame.fits => true
  | RenderFrame.brk c => !c && decide (width ≤ st.remaining)

/-- `Printer::render_break`. -/
def render_break (st : RState) (indent width : Nat) : RState :=
  if break_fits st width then
    { st with output := write_spaces st.output width,
              remaining := st.remaining - width }
  else
    { st with output := write_str st.output "\n",
              pending_indent := indent,
              remaining := st.line_width - indent }

/-- `Printer::render_end`: pop the render stack. -/
def render_end (st : RState) : RState :=
  { st with render_stack := st.render_stack.tail }

/-- The stack push performed at the start of `Printer::render_begin`
(`core.rs:226-230`): `Fits` if the decided width fits in `remaining`,
otherwise `Break { consistent: true }` — the source hardcodes `true`. -/
def render_push (st : RState) (width : Nat) : RState :=
  { st with render_stack :=
      (if width ≤ st.remaining then RenderFrame.fits
       else RenderFrame.brk true) :: st.render_stack }

mutual

/-- `Printer::render_token`: dispatch on the token tag. -/
def render_token (st : RState) (t : Token) (width : Nat) : RState :=
  match t with
  | Token.text s => render_text st s width
  | Token.brk ind => render_break st ind width
  | Token.group ts => render_end (render_tokens (render_push st width) ts)

/-- The token loop of `Printer::render_begin`. -/
def render_tokens (st : RState) (ts : List (Token × Nat)) : RState :=
  match ts with
  | [] => st
  | (t, w) :: rest => render_tokens (render_token st t w) rest

end

/-- `Printer::render_begin`: push the fit decision for the group, then emit
its children. -/
def render_begin (st : RState) (ts : List (Token × Nat)) (width : Nat) : RState :=
  render_tokens (render_push st width) ts

/-- The scanner half of the Rust `Printer` struct: `position`, the indent
stack (top at the head), the scan deque `dq` (front at the head, each entry
`(start_position, group children)`), and the renderer state. -/
structure Printer : Type where
  position : Nat
  indent : List Int
  dq : List (Nat × List (Token × Nat))
  rs : RState
deriving Repr

/-- `VecDeque::back_mut` followed by `grp.tokens.push((out, width))`: append
a token to the back (last) group of the deque.  Unused on an empty deque. -/
def addToBack (dq : List (Nat × List (Token × Nat))) (t : Token) (w : Nat) :
    List (Nat × List (Token × Nat)) :=
  match dq with
  | [] => []
  | [(s, g)] => [(s, g ++ [(t, w)])]
  | x :: rest => x :: addToBack rest t w

/-- The `while` loop of `Printer::prune`, structurally recursive on the
deque: while the front group's span `position - start` exceeds `remaining`,
pop it and emit it through the renderer with width `MAX_WIDTH`.
`position` is constant during the loop, so it is a plain parameter. -/
def prune_go (position : Nat) :
    List (Nat × List (Token × Nat)) → RState →
      List (Nat × List (Token × Nat)) × RState
  | [], rs => ([], rs)
  | (s, g) :: rest, rs =>
    if position - s > rs.remaining then
      prune_go position rest (render_begin rs g MAX_WIDTH)
    else ((s, g) :: rest, rs)

/-- `Printer::prune`. -/
def prune (p : Printer) : Printer :=
  let r := prune_go p.position p.dq p.rs
  { p with dq := r.1, rs := r.2 }

/-- `Printer::scan`: advance `position` by `width`, then either buffer the
token in the back group and prune, or (empty deque) render it directly.
(The Rust code updates `position` before testing `dq`; the two commute, so
the test is written on the untouched `dq` here.) -/
def scan (p : Printer) (width : Nat) (out : Token) : Printer :=
  match p.dq with
  | [] => { p with position := p.position + width,
                   rs := render_token p.rs out width }
  | _ :: _ =>
    prune { p with position := p.position + width,
                   dq := addToBack p.dq out width }

/-- `Printer::scan_text`.  With the `String` sink the `Result` is always
`Ok`, so the function is total. -/
def scan_text (p : Printer) (text : String) (width : Nat) : Printer :=
  scan p width (Token.text text)

/-- `Printer::scan_break`: compute the absolute indent `top + indent` at
scan time; `none` models the two possible panics (`expect` on a negative
indent, `unwrap` on an empty indent stack). -/
def scan_break (p : Printer) (size : Nat) (indent : Int) : Option Printer :=
  match p.indent.head? with
  | none => none
  | some top =>
    if top + indent < 0 then none
    else some (scan p size (Token.brk (top + indent).toNat))

/-- `Printer::scan_begin`: push `top + indent` on the indent stack and a
fresh group frame `(position, [])` on the back of the deque.  `none` models
the `unwrap` panic on an empty indent stack. -/
def scan_begin (p : Printer) (indent : Int) : Option Printer :=
  match p.indent.head? with
  | none => none
  | some top =>
    some { p with indent := (top + indent) :: p.indent,
                  dq := p.dq ++ [(p.position, [])] }

/-- `Printer::scan_end`: pop the indent stack; pop the back of the deque;
nest the closed group into the new back, or, if the deque became empty,
render it; on an already-empty deque just pop the render stack.  Total:
with the `String` sink every path returns `Ok`. -/
def scan_end (p : Printer) : Printer :=
  match p.dq.getLast? with
  | some (s, grp1) =>
    match p.dq.dropLast with
    | [] => { p with indent := p.indent.tail, dq := [],
                     rs := render_end (render_begin p.rs grp1 (p.position - s)) }
    | _ :: _ =>
      { p with indent := p.indent.tail,
               dq := addToBack p.dq.dropLast (Token.group grp1) (p.position - s) }
  | none => { p with indent := p.indent.tail, rs := render_end p.rs }

/-- `Printer::new`: the assertion `1 ≤ line_width ≤ MAX_WIDTH` is kept as a
hypothesis of the theorems; the constructor state then runs
`scan_begin(0)`, which always succeeds on the initial stack `[0]`. -/
def Printer.new (line_width : Nat) : Printer :=
  let base : Printer :=
    { position := 0
      indent := [0]
      dq := []
      rs := { line_width := line_width
              output := []
              remaining := line_width
              render_stack := []
              pending_indent := 0 } }
  match scan_begin base 0 with
  | some p => p
  | none => base

/-- `Printer::finish`: close the implicit outer group and return the sink;
`none` models the `assert!(dq.is_empty(), "unclosed group")` panic. -/
def finish (p : Printer) : Option (List Char) :=
  match (scan_end p).dq with
  | [] => some (scan_end p).rs.output
  | _ :: _ => none

/-- `Printer::hard_break` from `helper.rs`: `scan_break(MAX_WIDTH, 0)`. -/
def hard_break (p : Printer) : Option Printer :=
  scan_break p MAX_WIDTH 0

/-- A scanner-level input directive: one call to a primitive scan
operation (§4.1 of the spec). -/
inductive Directive : Type where
  | dText (s : String) (w : Nat) : Directive
  | dBreak (size : Nat) (indent : Int) : Directive
  | dBegin (indent : Int) : Directive
  | dEnd : Directive
deriving Repr

/-- Run one directive. -/
def runD (p : Printer) : Directive → Option Printer
  | Directive.dText s w => some (scan_text p s w)
  | Directive.dBreak n i => scan_break p n i
  | Directive.dBegin i => scan_begin p i
  | Directive.dEnd => some (scan_end p)

/-- Run a directive sequence. -/
def run (p : Printer) : List Directive → Option Printer
  | [] => some p
  | d :: ds =>
    match runD p d with
    | none => none
    | some p' => run p' ds

/-- Run a directive sequence from a fresh printer and finish. -/
def runFinish (line_width : Nat) (ds : List Directive) : Option (List Char) :=
  match run (Printer.new line_width) ds with
  | none => none
  | some p => finish p

/-! ## Basic facts about the sink operations -/

theorem write_spaces_eq (out : List Char) (n : Nat) :
    write_spaces out n = out ++ List.replicate n ' ' := by
  induction n generalizing out with
  | zero => simp [write_spaces]
  | succ n ih =>
    simp only [write_spaces, List.replicate_succ, List.foldl_cons] at *
    rw [ih]
    simp

theorem str_repeat_space_data (n : Nat) :
    (str_repeat " " n).data = List.replicate n ' ' := by
  induction n with
  | zero => rfl
  | succ n ih => simp [str_repeat, List.replicate_succ, ih]

/-! ## Field characterizations of the renderer primitives -/

theorem render_text_eq (st : RState) (s : String) (width : Nat) :
    render_text st s width =
      { st with output := st.output ++ List.replicate st.pending_indent ' ' ++ s.data,
                pending_indent := 0,
                remaining := st.remaining - width } := by
  obtain ⟨lw, out, rem, stk, pi⟩ := st
  by_cases h : 0 < pi <;>
    simp_all [render_text, write_spaces_eq, write_str]

theorem render_break_of_fits (st : RState) (indent width : Nat)
    (h : break_fits st width = true) :
    render_break st indent width =
      { st with output := st.output ++ List.replicate width ' ',
                remaining := st.remaining - width } := by
  simp [render_break, h, write_spaces_eq]

theorem render_break_of_not_fits (st : RState) (indent width : Nat)
    (h : break_fits st width = false) :
    render_break st indent width =
      { st with output := st.output ++ ['\n'],
                pending_indent := indent,
                remaining := st.line_width - indent } := by
  simp [render_break, h, write_str]

theorem break_fits_of_fits_frame (st : RState) (width : Nat)
    (h : st.render_stack.head? = some RenderFrame.fits) :
    break_fits st width = true := by
  simp [break_fits, h]

theorem break_fits_of_brk_frame (st : RState) (width : Nat) (c : Bool)
    (h : st.render_stack.head?.getD (RenderFrame.brk false) = RenderFrame.brk c)
    (hv : c = true ∨ st.remaining < width) :
    break_fits st width = false := by
  rcases hv with hv | hv <;> simp_all [break_fits]

theorem render_text_render_stack (st : RState) (s : String) (width : Nat) :
    (render_text st s width).render_stack = st.render_stack := by
  rw [render_text_eq]

theorem render_break_render_stack (st : RState) (indent width : Nat) :
    (render_break st indent width).render_stack = st.render_stack := by
  unfold render_break
  split <;> rfl

theorem render_text_line_width (st : RState) (s : String) (width : Nat) :
    (render_text st s width).line_width = st.line_width := by
  rw [render_text_eq]

theorem render_break_line_width (st : RState) (indent width : Nat) :
    (render_break st indent width).line_width = st.line_width := by
  unfold render_break
  split <;> rfl

theorem render_text_remaining_le (st : RState) (s : String) (width : Nat)
    (h : st.remaining ≤ st.line_width) :
    (render_text st s width).remaining ≤ st.line_width := by
  rw [render_text_eq]
  exact le_trans (Nat.sub_le _ _) h

theorem render_break_remaining_le (st : RState) (indent width : Nat)
    (h : st.remaining ≤ st.line_width) :
    (render_break st indent width).remaining ≤ st.line_width := by
  unfold render_break
  split
  · exact le_trans (Nat.sub_le _ _) h
  · exact Nat.sub_le _ _

/-! ## Structural facts about `render_token` / `render_tokens`

Rendering a token tree never changes the render stack (every nested
`render_begin` push is matched by the `render_end` pop in
`render_token`'s `Group` arm), never changes `line_width`, and keeps
`remaining ≤ line_width` (claims C3, C4, C5, C6 all lean on these). -/

mutual

theorem render_token_render_stack (st : RState) (t : Token) (w : Nat) :
    (render_token st t w).render_stack = st.render_stack := by
  match t with
  | Token.text s => exact render_text_render_stack st s w
  | Token.brk ind => exact render_break_render_stack st ind w
  | Token.group ts =>
    show (render_end (render_tokens (render_push st w) ts)).render_stack = _
    rw [render_end, render_tokens_render_stack (render_push st w) ts]
    rfl

theorem render_tokens_render_stack (st : RState) (ts : List (Token × Nat)) :
    (render_tokens st ts).render_stack = st.render_stack := by
  match ts with
  | [] => rfl
  | (t, w) :: rest =>
    show (render_tokens (render_token st t w) rest).render_stack = _
    rw [render_tokens_render_stack (render_token st t w) rest,
      render_token_render_stack st t w]

end

mutual

theorem render_token_line_width (st : RState) (t : Token) (w : Nat) :
    (render_token st t w).line_width = st.line_width := by
  match t with
  | Token.text s => exact render_text_line_width st s w
  | Token.brk ind => exact render_break_line_width st ind w
  | Token.group ts =>
    show (render_end (render_tokens (render_push st w) ts)).line_width = _
    rw [render_end, render_tokens_line_width (render_push st w) ts]
    rfl

theorem render_tokens_line_width (st : RState) (ts : List (Token × Nat)) :
    (render_tokens st ts).line_width = st.line_width := by
  match ts with
  | [] => rfl
  | (t, w) :: rest =>
    show (render_tokens (render_token st t w) rest).line_width = _
    rw [render_tokens_line_width (render_token st t w) rest,
      render_token_line_width st t w]

end

mutual

theorem render_token_remaining_le (st : RState) (t : Token) (w : Nat)
    (h : st.remaining ≤ st.line_width) :
    (render_token st t w).remaining ≤ (render_token st t w).line_width := by
  match t with
  | Token.text s =>
    rw [render_token, render_text_line_width]
    exact render_text_remaining_le st s w h
  | Token.brk ind =>
    rw [render_token, render_break_line_width]
    exact render_break_remaining_le st ind w h
  | Token.group ts =>
    show (render_end (render_tokens (render_push st w) ts)).remaining ≤ _
    rw [render_end]
    exact render_tokens_remaining_le (render_push st w) ts h

theorem render_tokens_remaining_le (st : RState) (ts : List (Token × Nat))
    (h : st.remaining ≤ st.line_width) :
    (render_tokens st ts).remaining ≤ (render_tokens st ts).line_width := by
  match ts with
  | [] => exact h
  | (t, w) :: rest =>
    show (render_tokens (render_token st t w) rest).remaining ≤ _
    refine render_tokens_remaining_le (render_token st t w) rest ?_
    have h2 := render_token_remaining_le st t w h
    rw [render_token_line_width st t w] at h2
    rw [render_token_line_width st t w]
    exact h2

end

theorem render_begin_render_stack (st : RState) (ts : List (Token × Nat))
    (width : Nat) :
    (render_begin st ts width).render_stack =
      (if width ≤ st.remaining then RenderFrame.fits
       else RenderFrame.brk true) :: st.render_stack := by
  rw [render_begin, render_tokens_render_stack]
  rfl

theorem render_begin_line_width (st : RState) (ts : List (Token × Nat))
    (width : Nat) :
    (render_begin st ts width).line_width = st.line_width := by
  rw [render_begin, render_tokens_line_width]
  rfl

theorem render_begin_remaining_le (st : RState) (ts : List (Token × Nat))
    (width : Nat) (h : st.remaining ≤ st.line_width) :
    (render_begin st ts width).remaining ≤ (render_begin st ts width).line_width := by
  rw [render_begin]
  exact render_tokens_remaining_le (render_push st width) ts h

theorem render_tokens_append (st : RState) (a b : List (Token × Nat)) :
    render_tokens st (a ++ b) = render_tokens (render_tokens st a) b := by
  induction a generalizing st with
  | nil => rfl
  | cons x rest ih =>
    obtain ⟨t, w⟩ := x
    show render_tokens (render_token st t w) (rest ++ b) = _
    rw [ih]
    rfl

/-! ## Text preservation machinery (claim C9)

The engine only ever writes three kinds of character runs: text contents
(verbatim), runs of spaces (indentation, horizontal breaks) and single
newlines.  `nonWs` keeps exactly the characters that cannot come from a
break or an indent, and `tokenTexts` collects the text contents buffered
in a token tree, in emission order. -/

/-- A character that is neither a space nor a newline. -/
def nonWs (c : Char) : Bool := !(c == ' ' || c == '\n')

mutual

/-- All text contents inside a token, in order. -/
def tokenTexts : Token → List Char
  | Token.text s => s.data
  | Token.brk _ => []
  | Token.group ts => tokensTexts ts

/-- All text contents inside a token list, in order. -/
def tokensTexts : List (Token × Nat) → List Char
  | [] => []
  | (t, _) :: rest => tokenTexts t ++ tokensTexts rest

end

/-- All text contents buffered in the scan deque, front group first (the
order in which pruning would emit them). -/
def dqTexts : List (Nat × List (Token × Nat)) → List Char
  | [] => []
  | (_, g) :: rest => tokensTexts g ++ dqTexts rest

/-- All text contents of a directive sequence, in order. -/
def directiveTexts : List Directive → List Char
  | [] => []
  | Directive.dText s _ :: ds => s.data ++ directiveTexts ds
  | _ :: ds => directiveTexts ds

theorem filter_nonWs_replicate_space (n : Nat) :
    (List.replicate n ' ').filter nonWs = [] := by
  induction n with
  | zero => rfl
  | succ n ih => simp [List.replicate_succ, List.filter_cons, ih, nonWs]

theorem tokensTexts_append (a b : List (Token × Nat)) :
    tokensTexts (a ++ b) = tokensTexts a ++ tokensTexts b := by
  induction a with
  | nil => rfl
  | cons x rest ih =>
    obtain ⟨t, w⟩ := x
    show tokenTexts t ++ tokensTexts (rest ++ b) = _
    rw [ih, tokensTexts, List.append_assoc]

theorem dqTexts_append (a b : List (Nat × List (Token × Nat))) :
    dqTexts (a ++ b) = dqTexts a ++ dqTexts b := by
  induction a with
  | nil => rfl
  | cons x rest ih =>
    obtain ⟨s, g⟩ := x
    show tokensTexts g ++ dqTexts (rest ++ b) = _
    rw [ih, dqTexts, List.append_assoc]

theorem render_text_filter (st : RState) (s : String) (width : Nat) :
    (render_text st s width).output.filter nonWs =
      st.output.filter nonWs ++ s.data.filter nonWs := by
  rw [render_text_eq]
  show (st.output ++ List.replicate st.pending_indent ' ' ++ s.data).filter nonWs = _
  rw [List.filter_append, List.filter_append, filter_nonWs_replicate_space,
    List.append_nil]

theorem render_break_filter (st : RState) (indent width : Nat) :
    (render_break st indent width).output.filter nonWs =
      st.output.filter nonWs := by
  unfold render_break
  split
  · show (write_spaces st.output width).filter nonWs = _
    rw [write_spaces_eq, List.filter_append, filter_nonWs_replicate_space,
      List.append_nil]
  · show (st.output ++ "\n".data).filter nonWs = _
    rw [List.filter_append]
    simp [nonWs]

mutual

theorem render_token_filter (st : RState) (t : Token) (w : Nat) :
    (render_token st t w).output.filter nonWs =
      st.output.filter nonWs ++ (tokenTexts t).filter nonWs := by
  match t with
  | Token.text s => exact render_text_filter st s w
  | Token.brk ind =>
    show (render_break st ind w).output.filter nonWs = _
    rw [render_break_filter]
    simp [tokenTexts]
  | Token.group ts =>
    show (render_end (render_tokens (render_push st w) ts)).output.filter nonWs = _
    rw [render_end]
    exact render_tokens_filter (render_push st w) ts

theorem render_tokens_filter (st : RState) (ts : List (Token × Nat)) :
    (render_tokens st ts).output.filter nonWs =
      st.output.filter nonWs ++ (tokensTexts ts).filter nonWs := by
  match ts with
  | [] => simp [render_tokens, tokensTexts]
  | (t, w) :: rest =>
    show (render_tokens (render_token st t w) rest).output.filter nonWs = _
    rw [render_tokens_filter (render_token st t w) rest,
      render_token_filter st t w, tokensTexts, List.filter_append,
      List.append_assoc]

end

theorem render_begin_filter (st : RState) (ts : List (Token × Nat)) (width : Nat) :
    (render_begin st ts width).output.filter nonWs =
      st.output.filter nonWs ++ (tokensTexts ts).filter nonWs := by
  rw [render_begin]
  exact render_tokens_filter (render_push st width) ts

/-! ## Invariants threaded through the scanner

`StackOk` says every frame still on the render stack at a point where the
scanner is in control is `Break { consistent: true }`: the only pushes that
outlive one scan operation come from pruning, which passes `MAX_WIDTH`,
and (for `line_width ≤ 65535`) `MAX_WIDTH` never fits. -/

/-- Every frame on the render stack is `Break { consistent: true }`. -/
def StackOk (st : RState) : Prop :=
  ∀ f ∈ st.render_stack, f = RenderFrame.brk true

/-- The renderer-state invariant maintained by every scanner operation when
the printer was built with `line_width ≤ 65535`. -/
def ScanInv (st : RState) : Prop :=
  st.line_width ≤ 65535 ∧ st.remaining ≤ st.line_width ∧ StackOk st

theorem render_push_max_not_fits (st : RState)
    (h : st.remaining < MAX_WIDTH) :
    (render_push st MAX_WIDTH).render_stack =
      RenderFrame.brk true :: st.render_stack := by
  rw [render_push]
  simp [Nat.not_le_of_lt h]

theorem render_begin_inv (st : RState) (ts : List (Token × Nat))
    (h : ScanInv st) :
    ScanInv (render_begin st ts MAX_WIDTH) := by
  obtain ⟨h1, h2, h3⟩ := h
  refine ⟨?_, ?_, ?_⟩
  · rw [render_begin_line_width]
    exact h1
  · rw [render_begin_line_width]
    have := render_begin_remaining_le st ts MAX_WIDTH h2
    rwa [render_begin_line_width] at this
  · intro f hf
    rw [render_begin_render_stack] at hf
    have hlt : st.remaining < MAX_WIDTH := by
      have : st.remaining ≤ st.line_width := h2
      unfold MAX_WIDTH
      omega
    rw [if_neg (Nat.not_le_of_lt hlt)] at hf
    rcases List.mem_cons.mp hf with h | h
    · exact h
    · exact h3 f h

theorem prune_go_line_width (pos : Nat) (dq : List (Nat × List (Token × Nat)))
    (rs : RState) :
    (prune_go pos dq rs).2.line_width = rs.line_width := by
  induction dq generalizing rs with
  | nil => rfl
  | cons x rest ih =>
    obtain ⟨s, g⟩ := x
    rw [prune_go]
    split
    · rw [ih, render_begin_line_width]
    · rfl

theorem prune_go_inv (pos : Nat) (dq : List (Nat × List (Token × Nat)))
    (rs : RState) (h : ScanInv rs) :
    ScanInv (prune_go pos dq rs).2 := by
  induction dq generalizing rs with
  | nil => exact h
  | cons x rest ih =>
    obtain ⟨s, g⟩ := x
    rw [prune_go]
    split
    · exact ih (render_begin rs g MAX_WIDTH) (render_begin_inv rs g h)
    · exact h

theorem prune_go_pairwise (pos : Nat) (dq : List (Nat × List (Token × Nat)))
    (rs : RState)
    (h : List.Pairwise (fun a b => a.1 ≤ b.1) dq) :
    List.Pairwise (fun a b => a.1 ≤ b.1) (prune_go pos dq rs).1 := by
  induction dq generalizing rs with
  | nil => exact h
  | cons x rest ih =>
    obtain ⟨s, g⟩ := x
    rw [prune_go]
    split
    · exact ih (render_begin rs g MAX_WIDTH) (List.Pairwise.of_cons h)
    · exact h

theorem prune_go_bound (pos : Nat) (dq : List (Nat × List (Token × Nat)))
    (rs : RState)
    (h : List.Pairwise (fun a b => a.1 ≤ b.1) dq) :
    ∀ e ∈ (prune_go pos dq rs).1, pos - e.1 ≤ (prune_go pos dq rs).2.remaining := by
  induction dq generalizing rs with
  | nil => intro e he; simp [prune_go] at he
  | cons x rest ih =>
    obtain ⟨s, g⟩ := x
    rw [prune_go]
    split
    · exact ih (render_begin rs g MAX_WIDTH) (List.Pairwise.of_cons h)
    · intro e he
      rename_i hle
      rw [Nat.not_lt] at hle
      rcases List.mem_cons.mp he with rfl | he
      · exact hle
      · have hse : s ≤ e.1 := (List.pairwise_cons.mp h).1 e he
        exact le_trans (Nat.sub_le_sub_left hse pos) hle

theorem prune_go_filter (pos : Nat) (dq : List (Nat × List (Token × Nat)))
    (rs : RState) :
    (prune_go pos dq rs).2.output.filter nonWs ++
        (dqTexts (prune_go pos dq rs).1).filter nonWs =
      rs.output.filter nonWs ++ (dqTexts dq).filter nonWs := by
  induction dq generalizing rs with
  | nil => rfl
  | cons x rest ih =>
    obtain ⟨s, g⟩ := x
    rw [prune_go]
    split
    · rw [ih (render_begin rs g MAX_WIDTH), render_begin_filter]
      show _ = _ ++ (tokensTexts g ++ dqTexts rest).filter nonWs
      rw [List.filter_append, List.append_assoc]
    · rfl

theorem addToBack_map_fst (dq : List (Nat × List (Token × Nat))) (t : Token)
    (w : Nat) :
    (addToBack dq t w).map Prod.fst = dq.map Prod.fst := by
  induction dq with
  | nil => rfl
  | cons x rest ih =>
    obtain ⟨s, g⟩ := x
    cases rest with
    | nil => rfl
    | cons y rest' =>
      show ((s, g) :: addToBack (y :: rest') t w).map Prod.fst = _
      rw [List.map_cons, ih]
      rfl

theorem addToBack_texts (dq : List (Nat × List (Token × Nat))) (t : Token)
    (w : Nat) (h : dq ≠ []) :
    dqTexts (addToBack dq t w) = dqTexts dq ++ tokenTexts t := by
  induction dq with
  | nil => exact absurd rfl h
  | cons x rest ih =>
    obtain ⟨s, g⟩ := x
    cases rest with
    | nil =>
      show dqTexts [(s, g ++ [(t, w)])] = _
      rw [dqTexts, dqTexts, tokensTexts_append]
      show tokensTexts g ++ (tokenTexts t ++ tokensTexts []) ++ dqTexts [] = _
      simp [tokensTexts, dqTexts]
    | cons y rest' =>
      show dqTexts ((s, g) :: addToBack (y :: rest') t w) = _
      rw [dqTexts, ih (by simp)]
      show _ = (tokensTexts g ++ dqTexts (y :: rest')) ++ tokenTexts t
      rw [List.append_assoc]

/-! ## Scanner operation characterizations and invariants -/

theorem prune_eq (p : Printer) :
    prune p = { p with dq := (prune_go p.position p.dq p.rs).1,
                       rs := (prune_go p.position p.dq p.rs).2 } := rfl

theorem scan_eq_of_nil (p : Printer) (w : Nat) (out : Token) (h : p.dq = []) :
    scan p w out =
      { p with position := p.position + w, rs := render_token p.rs out w } := by
  unfold scan
  rw [h]

theorem scan_eq_of_ne_nil (p : Printer) (w : Nat) (out : Token) (h : p.dq ≠ []) :
    scan p w out =
      prune { p with position := p.position + w,
                     dq := addToBack p.dq out w } := by
  unfold scan
  obtain ⟨x, rest, hx⟩ := List.exists_cons_of_ne_nil h
  rw [hx]

theorem scan_position (p : Printer) (w : Nat) (out : Token) :
    (scan p w out).position = p.position + w := by
  by_cases h : p.dq = []
  · rw [scan_eq_of_nil p w out h]
  · rw [scan_eq_of_ne_nil p w out h, prune_eq]

theorem scan_indent (p : Printer) (w : Nat) (out : Token) :
    (scan p w out).indent = p.indent := by
  by_cases h : p.dq = []
  · rw [scan_eq_of_nil p w out h]
  · rw [scan_eq_of_ne_nil p w out h, prune_eq]

theorem render_token_inv (st : RState) (t : Token) (w : Nat)
    (h : ScanInv st) : ScanInv (render_token st t w) := by
  obtain ⟨h1, h2, h3⟩ := h
  refine ⟨?_, ?_, ?_⟩
  · rw [render_token_line_width]
    exact h1
  · exact render_token_remaining_le st t w h2
  · intro f hf
    rw [render_token_render_stack] at hf
    exact h3 f hf

theorem scan_inv (p : Printer) (w : Nat) (out : Token)
    (h : ScanInv p.rs) : ScanInv (scan p w out).rs := by
  by_cases hdq : p.dq = []
  · rw [scan_eq_of_nil p w out hdq]
    exact render_token_inv p.rs out w h
  · rw [scan_eq_of_ne_nil p w out hdq, prune_eq]
    exact prune_go_inv _ _ _ h

theorem scan_filter (p : Printer) (w : Nat) (out : Token) :
    (scan p w out).rs.output.filter nonWs ++
        (dqTexts (scan p w out).dq).filter nonWs =
      p.rs.output.filter nonWs ++ (dqTexts p.dq).filter nonWs ++
        (tokenTexts out).filter nonWs := by
  by_cases hdq : p.dq = []
  · rw [scan_eq_of_nil p w out hdq]
    show (render_token p.rs out w).output.filter nonWs ++
        (dqTexts p.dq).filter nonWs = _
    rw [render_token_filter, hdq]
    simp [dqTexts]
  · rw [scan_eq_of_ne_nil p w out hdq, prune_eq]
    show (prune_go _ _ _).2.output.filter nonWs ++
        (dqTexts (prune_go _ _ _).1).filter nonWs = _
    rw [prune_go_filter]
    show p.rs.output.filter nonWs ++
        (dqTexts (addToBack p.dq out w)).filter nonWs = _
    rw [addToBack_texts p.dq out w hdq, List.filter_append, List.append_assoc]

theorem scan_bound (p : Printer) (w : Nat) (out : Token)
    (hp : List.Pairwise (fun a b => a.1 ≤ b.1) p.dq) :
    ∀ e ∈ (scan p w out).dq,
      (scan p w out).position - e.1 ≤ (scan p w out).rs.remaining := by
  by_cases hdq : p.dq = []
  · rw [scan_eq_of_nil p w out hdq]
    intro e he
    have : e ∈ p.dq := he
    rw [hdq] at this
    simp at this
  · rw [scan_eq_of_ne_nil p w out hdq, prune_eq]
    have hp2 : List.Pairwise (fun a b => a.1 ≤ b.1) (addToBack p.dq out w) := by
      have h1 : ((addToBack p.dq out w).map Prod.fst).Pairwise (· ≤ ·) := by
        rw [addToBack_map_fst]
        exact List.pairwise_map.mpr hp
      exact List.pairwise_map.mp h1
    exact prune_go_bound _ _ _ hp2

theorem scan_end_eq_of_nil (p : Printer) (h : p.dq = []) :
    scan_end p = { p with indent := p.indent.tail, rs := render_end p.rs } := by
  unfold scan_end
  rw [h]
  rfl

theorem scan_end_eq_of_single (p : Printer) (s : Nat) (g : List (Token × Nat))
    (h : p.dq = [(s, g)]) :
    scan_end p =
      { p with indent := p.indent.tail, dq := [],
               rs := render_end (render_begin p.rs g (p.position - s)) } := by
  unfold scan_end
  rw [h]
  rfl

theorem scan_end_eq_of_concat (p : Printer) (l : List (Nat × List (Token × Nat)))
    (s : Nat) (g : List (Token × Nat)) (hl : l ≠ []) (h : p.dq = l ++ [(s, g)]) :
    scan_end p =
      { p with indent := p.indent.tail,
               dq := addToBack l (Token.group g) (p.position - s) } := by
  unfold scan_end
  rw [h, List.getLast?_concat, List.dropLast_concat]
  obtain ⟨x, rest, hx⟩ := List.exists_cons_of_ne_nil hl
  rw [hx]

theorem scan_end_position (p : Printer) : (scan_end p).position = p.position := by
  rcases List.eq_nil_or_concat p.dq with h | ⟨l, ⟨s, g⟩, h⟩
  · rw [scan_end_eq_of_nil p h]
  · rw [List.concat_eq_append] at h
    rcases List.eq_nil_or_concat l with rfl | hne
    · rw [scan_end_eq_of_single p s g (by simpa using h)]
    · have hl : l ≠ [] := by rcases hne with ⟨l2, x2, rfl⟩; simp
      rw [scan_end_eq_of_concat p l s g hl h]

theorem scan_end_inv (p : Printer) (h : ScanInv p.rs) :
    ScanInv (scan_end p).rs := by
  rcases List.eq_nil_or_concat p.dq with hdq | ⟨l, ⟨s, g⟩, hdq⟩
  · rw [scan_end_eq_of_nil p hdq]
    obtain ⟨h1, h2, h3⟩ := h
    refine ⟨h1, h2, ?_⟩
    intro f hf
    exact h3 f (List.mem_of_mem_tail hf)
  · rw [List.concat_eq_append] at hdq
    rcases List.eq_nil_or_concat l with rfl | hne
    · rw [scan_end_eq_of_single p s g (by simpa using hdq)]
      obtain ⟨h1, h2, h3⟩ := h
      refine ⟨?_, ?_, ?_⟩
      · show (render_end (render_begin p.rs g (p.position - s))).line_width ≤ 65535
        rw [render_end, render_begin_line_width]
        exact h1
      · show (render_end _).remaining ≤ (render_end _).line_width
        rw [render_end]
        exact render_begin_remaining_le p.rs g (p.position - s) h2
      · intro f hf
        rw [render_end, render_begin_render_stack] at hf
        exact h3 f (by simpa using hf)
    · have hl : l ≠ [] := by rcases hne with ⟨l2, x2, rfl⟩; simp
      rw [scan_end_eq_of_concat p l s g hl hdq]
      exact h

theorem scan_end_filter (p : Printer) :
    (scan_end p).rs.output.filter nonWs ++
        (dqTexts (scan_end p).dq).filter nonWs =
      p.rs.output.filter nonWs ++ (dqTexts p.dq).filter nonWs := by
  rcases List.eq_nil_or_concat p.dq with hdq | ⟨l, ⟨s, g⟩, hdq⟩
  · rw [scan_end_eq_of_nil p hdq]
    rfl
  · rw [List.concat_eq_append] at hdq
    rcases List.eq_nil_or_concat l with rfl | hne
    · rw [scan_end_eq_of_single p s g (by simpa using hdq)]
      show (render_end (render_begin p.rs g (p.position - s))).output.filter nonWs
          ++ (dqTexts []).filter nonWs = _
      rw [render_end]
      show (render_begin p.rs g (p.position - s)).output.filter nonWs ++ _ = _
      rw [render_begin_filter, hdq]
      simp [dqTexts, tokensTexts]
    · have hl : l ≠ [] := by rcases hne with ⟨l2, x2, rfl⟩; simp
      rw [scan_end_eq_of_concat p l s g hl hdq]
      show p.rs.output.filter nonWs ++
          (dqTexts (addToBack l (Token.group g) (p.position - s))).filter nonWs = _
      rw [addToBack_texts l _ _ hl, hdq, dqTexts_append]
      show _ ++ (dqTexts l ++ tokensTexts g).filter nonWs =
        _ ++ (dqTexts l ++ dqTexts [(s, g)]).filter nonWs
      simp [dqTexts, tokensTexts, tokenTexts]

/-! ## Per-directive and whole-run invariants -/

theorem scan_begin_eq (p : Printer) (i top : Int)
    (h : p.indent.head? = some top) :
    scan_begin p i =
      some { p with indent := (top + i) :: p.indent,
                    dq := p.dq ++ [(p.position, [])] } := by
  unfold scan_begin
  rw [h]

theorem scan_break_eq_none_iff (p : Printer) (size : Nat) (i top : Int)
    (h : p.indent.head? = some top) :
    (scan_break p size i = none ↔ top + i < 0) := by
  unfold scan_break
  rw [h]
  split <;> simp_all

theorem scan_break_eq_some (p : Printer) (size : Nat) (i top : Int)
    (h : p.indent.head? = some top) (hnn : 0 ≤ top + i) :
    scan_break p size i = some (scan p size (Token.brk (top + i).toNat)) := by
  unfold scan_break
  rw [h]
  dsimp only
  rw [if_neg (by omega)]

theorem runD_inv (p p' : Printer) (d : Directive)
    (h : runD p d = some p') (hi : ScanInv p.rs) : ScanInv p'.rs := by
  cases d with
  | dText s w =>
    rw [runD] at h
    injection h with h
    rw [← h]
    exact scan_inv p w (Token.text s) hi
  | dBreak n i =>
    rw [runD] at h
    unfold scan_break at h
    rcases hh : p.indent.head? with _ | top
    · rw [hh] at h
      exact absurd h (by simp)
    · rw [hh] at h
      dsimp only at h
      by_cases hneg : top + i < 0
      · rw [if_pos hneg] at h
        exact absurd h (by simp)
      · rw [if_neg hneg] at h
        injection h with h
        rw [← h]
        exact scan_inv p n _ hi
  | dBegin i =>
    rw [runD] at h
    unfold scan_begin at h
    rcases hh : p.indent.head? with _ | top
    · rw [hh] at h
      exact absurd h (by simp)
    · rw [hh] at h
      injection h with h
      rw [← h]
      exact hi
  | dEnd =>
    rw [runD] at h
    injection h with h
    rw [← h]
    exact scan_end_inv p hi

theorem run_inv (ds : List Directive) (p p' : Printer)
    (h : run p ds = some p') (hi : ScanInv p.rs) : ScanInv p'.rs := by
  induction ds generalizing p with
  | nil =>
    rw [run] at h
    injection h with h
    rw [← h]
    exact hi
  | cons d ds ih =>
    rw [run] at h
    rcases hd : runD p d with _ | p1
    · rw [hd] at h
      exact absurd h (by simp)
    · rw [hd] at h
      exact ih p1 h (runD_inv p p1 d hd hi)

theorem runD_filter (p p' : Printer) (d : Directive)
    (h : runD p d = some p') :
    p'.rs.output.filter nonWs ++ (dqTexts p'.dq).filter nonWs =
      p.rs.output.filter nonWs ++ (dqTexts p.dq).filter nonWs ++
        (directiveTexts [d]).filter nonWs := by
  cases d with
  | dText s w =>
    rw [runD] at h
    injection h with h
    rw [← h]
    unfold scan_text
    rw [scan_filter]
    simp [directiveTexts, tokenTexts]
  | dBreak n i =>
    rw [runD] at h
    unfold scan_break at h
    rcases hh : p.indent.head? with _ | top
    · rw [hh] at h
      exact absurd h (by simp)
    · rw [hh] at h
      dsimp only at h
      by_cases hneg : top + i < 0
      · rw [if_pos hneg] at h
        exact absurd h (by simp)
      · rw [if_neg hneg] at h
        injection h with h
        rw [← h]
        rw [scan_filter]
        simp [directiveTexts, tokenTexts]
  | dBegin i =>
    rw [runD] at h
    unfold scan_begin at h
    rcases hh : p.indent.head? with _ | top
    · rw [hh] at h
      exact absurd h (by simp)
    · rw [hh] at h
      injection h with h
      rw [← h]
      show p.rs.output.filter nonWs ++
          (dqTexts (p.dq ++ [(p.position, [])])).filter nonWs = _
      rw [dqTexts_append]
      simp [directiveTexts, dqTexts, tokensTexts]
  | dEnd =>
    rw [runD] at h
    injection h with h
    rw [← h]
    rw [scan_end_filter]
    simp [directiveTexts]

theorem directiveTexts_cons (d : Directive) (ds : List Directive) :
    directiveTexts (d :: ds) = directiveTexts [d] ++ directiveTexts ds := by
  cases d <;> simp [directiveTexts]

theorem run_filter (ds : List Directive) (p p' : Printer)
    (h : run p ds = some p') :
    p'.rs.output.filter nonWs ++ (dqTexts p'.dq).filter nonWs =
      p.rs.output.filter nonWs ++ (dqTexts p.dq).filter nonWs ++
        (directiveTexts ds).filter nonWs := by
  induction ds generalizing p with
  | nil =>
    rw [run] at h
    injection h with h
    rw [← h]
    simp [directiveTexts]
  | cons d ds ih =>
    rw [run] at h
    rcases hd : runD p d with _ | p1
    · rw [hd] at h
      exact absurd h (by simp)
    · rw [hd] at h
      rw [ih p1 h, runD_filter p p1 d hd, directiveTexts_cons d ds,
        List.filter_append, List.append_assoc]

theorem Printer.new_eq (lw : Nat) :
    Printer.new lw =
      { position := 0
        indent := [0, 0]
        dq := [(0, [])]
        rs := { line_width := lw
                output := []
                remaining := lw
                render_stack := []
                pending_indent := 0 } } := rfl

theorem Printer.new_inv (lw : Nat) (h : lw ≤ 65535) :
    ScanInv (Printer.new lw).rs := by
  rw [Printer.new_eq]
  exact ⟨h, le_refl lw, by intro f hf; simp at hf⟩

theorem finish_eq_some (p : Printer) (out : List Char)
    (h : finish p = some out) :
    out = (scan_end p).rs.output ∧ (scan_end p).dq = [] := by
  unfold finish at h
  rcases hdq : (scan_end p).dq with _ | ⟨x, rest⟩
  · rw [hdq] at h
    dsimp only at h
    injection h with h
    exact ⟨h.symm, rfl⟩
  · rw [hdq] at h
    exact absurd h (by simp)

/-! ## The claims -/

set_option maxRecDepth 4000 in
/-- C1: the claim says an inconsistent (`consistent = false`) group that does
not fit renders each direct break greedily against `remaining`.  The code
cannot: `scan_begin` (core.rs:118) takes no consistency flag although its
caller `helper.rs:111` passes one, and `render_begin` (core.rs:229) pushes
`Break { consistent: true }` unconditionally.  Evaluating the `igroup`
doctest of `helper.rs` (width 40: `igroup(2, {text "foo"; hard_break();
text "Hello,"; space(); text "world!"})`, documented output
`"foo\n  Hello, world!"`): the engine emits a newline for the size-1 space
break, producing `"foo\n  Hello,\n  world!"`. -/
theorem C1_igroup_doc_eval :
    runFinish 40 [Directive.dBegin 2, Directive.dText "foo" 3,
        Directive.dBreak 65536 0, Directive.dText "Hello," 6,
        Directive.dBreak 1 0, Directive.dText "world!" 6, Directive.dEnd]
      = some "foo\n  Hello,\n  world!".data
    ∧ "foo\n  Hello,\n  world!".data ≠ "foo\n  Hello, world!".data := by
  constructor
  · decide
  · decide

set_option maxRecDepth 4000 in
/-- C2: the claim says an unmatched `scan_end` fails with `UnmatchedEnd`.
The code has no such detection: a fresh printer given one (or two) extra
`scan_end` calls returns `Ok` each time and even `finish` succeeds with an
empty output; only a *later* `scan_break` hits the `unwrap` panic on the
emptied indent stack. -/
theorem C2_unmatched_end_eval :
    finish (scan_end (Printer.new 40)) = some []
    ∧ finish (scan_end (scan_end (Printer.new 40))) = some []
    ∧ (scan_break (scan_end (scan_end (Printer.new 40))) 1 0).isSome = false := by
  refine ⟨by decide, by decide, by decide⟩

set_option maxRecDepth 4000 in
/-- C3 counterexample: at `line_width = 65536` (explicitly included in the
claim) a `hard_break` (`scan_break(MAX_WIDTH, 0)`) is *not* rendered as a
newline.  With a full line remaining, `MAX_WIDTH ≤ remaining` holds, the
enclosing group is decided `Fits` (first conjunct), and the break takes the
horizontal branch: afterwards `remaining = 65536 - 65536 = 0`, whereas the
newline branch would leave `remaining = 65536 - 0 = 65536` (second
conjunct; the third shows the newline branch at `line_width = 65535`). -/
theorem C3_counterexample :
    (render_push (Printer.new 65536).rs MAX_WIDTH).render_stack
        = [RenderFrame.fits]
    ∧ (hard_break (Printer.new 65536)).map (fun p => (scan_end p).rs.remaining)
        = some 0
    ∧ (hard_break (Printer.new 65535)).map (fun p => (scan_end p).rs.remaining)
        = some 65535 := by
  refine ⟨by decide, by decide, by decide⟩

/-- C3 (amended to `line_width ≤ 65535`): in any state reachable by running
directives from a fresh printer with `1 ≤ line_width ≤ 65535`, (1) any
group decided at a width `≥ MAX_WIDTH` — as is every group enclosing a hard
break, since the break advances `position` by `MAX_WIDTH`, and every pruned
group, which is decided at `MAX_WIDTH` itself — is pushed as
`Break { consistent: true }`; and (2) rendering a break of width
`MAX_WIDTH` always takes the vertical branch, emitting exactly a newline,
whatever the (possibly inconsistent or empty-stack default) break frame. -/
theorem C3_hard_break_forces_newline (lw : Nat) (ds : List Directive)
    (p : Printer) (h1 : 1 ≤ lw) (h2 : lw ≤ 65535)
    (hrun : run (Printer.new lw) ds = some p) :
    (∀ w : Nat, MAX_WIDTH ≤ w →
        (render_push p.rs w).render_stack.head? = some (RenderFrame.brk true))
    ∧ ∀ ind : Nat,
        (render_break p.rs ind MAX_WIDTH).output = p.rs.output ++ ['\n']
        ∧ (render_break p.rs ind MAX_WIDTH).pending_indent = ind := by
  have hinv : ScanInv p.rs :=
    run_inv ds (Printer.new lw) p hrun (Printer.new_inv lw h2)
  obtain ⟨hlw, hrem, hstk⟩ := hinv
  constructor
  · intro w hw
    rw [render_push, if_neg (by unfold MAX_WIDTH at hw; omega)]
    rfl
  · intro ind
    have hbf : break_fits p.rs MAX_WIDTH = false := by
      rcases hs : p.rs.render_stack with _ | ⟨f, rest⟩
      · unfold break_fits
        rw [hs]
        simp only [List.head?_nil, Option.getD_none]
        simp only [Bool.not_false, Bool.true_and, decide_eq_false_iff_not]
        unfold MAX_WIDTH
        omega
      · have hf : f = RenderFrame.brk true := hstk f (by rw [hs]; exact List.mem_cons_self f rest)
        unfold break_fits
        rw [hs, hf]
        rfl
    rw [render_break_of_not_fits _ _ _ hbf]
    exact ⟨rfl, rfl⟩

/-- Witness for C3: instantiated at `line_width = 40` and the empty
directive sequence. -/
theorem C3_hard_break_forces_newline_witness :
    (1 ≤ 40 ∧ 40 ≤ 65535 ∧ run (Printer.new 40) [] = some (Printer.new 40))
    ∧ ((∀ w : Nat, MAX_WIDTH ≤ w →
          (render_push (Printer.new 40).rs w).render_stack.head?
            = some (RenderFrame.brk true))
       ∧ ∀ ind : Nat,
          (render_break (Printer.new 40).rs ind MAX_WIDTH).output
              = (Printer.new 40).rs.output ++ ['\n']
          ∧ (render_break (Printer.new 40).rs ind MAX_WIDTH).pending_indent
              = ind) :=
  ⟨⟨by decide, by decide, rfl⟩,
    C3_hard_break_forces_newline 40 [] (Printer.new 40)
      (by decide) (by decide) rfl⟩

/-- C4: if a group is decided at a width that fits (`w ≤ remaining` when
`render_begin` starts), every direct break of the group is emitted as
`size` spaces, never a newline.  The state just before any direct break is
`render_tokens` over the earlier children (first conjunct shows the run
decomposes there); the pushed `Fits` frame is still on top (child groups
push and pop in a balanced way), so `render_break` appends exactly
`List.replicate bw ' '` (second conjunct). -/
theorem C4_fit_no_newline (st : RState) (ts1 ts2 : List (Token × Nat))
    (ind bw w : Nat) (hw : w ≤ st.remaining) :
    render_begin st (ts1 ++ (Token.brk ind, bw) :: ts2) w
        = render_tokens (render_break (render_begin st ts1 w) ind bw) ts2
    ∧ (render_break (render_begin st ts1 w) ind bw).output
        = (render_begin st ts1 w).output ++ List.replicate bw ' ' := by
  constructor
  · rw [render_begin, render_tokens_append]
    rfl
  · have hf : break_fits (render_begin st ts1 w) bw = true := by
      apply break_fits_of_fits_frame
      rw [render_begin_render_stack, if_pos hw]
      rfl
    rw [render_break_of_fits _ _ _ hf]

/-- Witness for C4: a fitting group around a single width-1 break. -/
theorem C4_fit_no_newline_witness :
    (3 ≤ (({ line_width := 40, output := [], remaining := 40, render_stack := [], pending_indent := 0 } : RState)).remaining)
    ∧ (render_break (render_begin ({ line_width := 40, output := [], remaining := 40, render_stack := [], pending_indent := 0 } : RState) [] 3) 0 1).output
        = (render_begin ({ line_width := 40, output := [], remaining := 40, render_stack := [], pending_indent := 0 } : RState) [] 3).output ++ List.replicate 1 ' ' :=
  ⟨by decide, (C4_fit_no_newline ({ line_width := 40, output := [], remaining := 40, render_stack := [], pending_indent := 0 } : RState) [] [] 0 1 3 (by decide)).2⟩

/-- C5: if a group does not fit (`remaining < w` at `render_begin`), the
pushed frame is `Break { consistent: true }` (the source hardcodes the
flag, so *every* such group — in particular every consistent one — breaks
consistently) and every direct break is emitted as exactly one newline,
never as spaces. -/
theorem C5_consistent_break_newline (st : RState) (ts1 ts2 : List (Token × Nat))
    (ind bw w : Nat) (hw : st.remaining < w) :
    render_begin st (ts1 ++ (Token.brk ind, bw) :: ts2) w
        = render_tokens (render_break (render_begin st ts1 w) ind bw) ts2
    ∧ (render_break (render_begin st ts1 w) ind bw).output
        = (render_begin st ts1 w).output ++ ['\n'] := by
  constructor
  · rw [render_begin, render_tokens_append]
    rfl
  · have hf : break_fits (render_begin st ts1 w) bw = false := by
      apply break_fits_of_brk_frame _ _ true _ (Or.inl rfl)
      rw [render_begin_render_stack, if_neg (Nat.not_le_of_lt hw)]
      rfl
    rw [render_break_of_not_fits _ _ _ hf]

/-- Witness for C5: an overflowing group around a single width-1 break. -/
theorem C5_consistent_break_newline_witness :
    ((({ line_width := 40, output := [], remaining := 40, render_stack := [], pending_indent := 0 } : RState)).remaining < 41)
    ∧ (render_break (render_begin ({ line_width := 40, output := [], remaining := 40, render_stack := [], pending_indent := 0 } : RState) [] 41) 0 1).output
        = (render_begin ({ line_width := 40, output := [], remaining := 40, render_stack := [], pending_indent := 0 } : RState) [] 41).output ++ ['\n'] :=
  ⟨by decide, (C5_consistent_break_newline ({ line_width := 40, output := [], remaining := 40, render_stack := [], pending_indent := 0 } : RState) [] [] 0 1 41 (by decide)).2⟩

set_option maxRecDepth 4000 in
/-- C6 counterexample: the claim identifies the pruning decision "does not
fit" with "rendered as if its width were MAX_WIDTH".  At
`line_width = 65536` with a full line remaining the two differ: scanning a
single text of declared width 65537 prunes the implicit group and renders
it with width `MAX_WIDTH = 65536 ≤ remaining = 65536`, so the horizontal
decision is pre-set to `Fits`, not to does-not-fit. -/
theorem C6_counterexample :
    (scan_text (Printer.new 65536) "x" 65537).rs.render_stack
      = [RenderFrame.fits] := by
  decide

/-- C6 (amended): after any `scan_text`, and after any successful
`scan_break`, every element of the scan deque (given the claim's own
invariant that the deque is non-decreasing by start position) satisfies
`position - start_position ≤ remaining` — pruning really restores the
invariant, for the front element and hence for all of them.  Pruned groups
are emitted with decided width `MAX_WIDTH`, which pre-sets the decision to
does-not-fit (`Break { consistent: true }`) exactly when
`remaining < MAX_WIDTH` (always true for `line_width ≤ 65535`, and false
in the counterexample's corner). -/
theorem C6_prune_invariant (p : Printer) (s : String) (w size : Nat) (i : Int)
    (hp : List.Pairwise (fun a b => a.1 ≤ b.1) p.dq) :
    (∀ e ∈ (scan_text p s w).dq,
        (scan_text p s w).position - e.1 ≤ (scan_text p s w).rs.remaining)
    ∧ (∀ p', scan_break p size i = some p' →
        ∀ e ∈ p'.dq, p'.position - e.1 ≤ p'.rs.remaining)
    ∧ (∀ st : RState, st.remaining < MAX_WIDTH →
        (render_push st MAX_WIDTH).render_stack.head?
          = some (RenderFrame.brk true)) := by
  refine ⟨scan_bound p w (Token.text s) hp, ?_, ?_⟩
  · intro p' hpb
    unfold scan_break at hpb
    rcases hh : p.indent.head? with _ | top
    · rw [hh] at hpb
      exact absurd hpb (by simp)
    · rw [hh] at hpb
      dsimp only at hpb
      by_cases hneg : top + i < 0
      · rw [if_pos hneg] at hpb
        exact absurd hpb (by simp)
      · rw [if_neg hneg] at hpb
        injection hpb with hpb
        rw [← hpb]
        exact scan_bound p size (Token.brk (top + i).toNat) hp
  · intro st hst
    rw [render_push, if_neg (Nat.not_le_of_lt hst)]
    rfl

/-- Witness for C6: a fresh printer (deque `[(0, [])]`, trivially sorted),
a text of width 1 and a break of size 1. -/
theorem C6_prune_invariant_witness :
    List.Pairwise (fun (a b : Nat × List (Token × Nat)) => a.1 ≤ b.1)
        (Printer.new 40).dq
    ∧ (∀ e ∈ (scan_text (Printer.new 40) "a" 1).dq,
        (scan_text (Printer.new 40) "a" 1).position - e.1
          ≤ (scan_text (Printer.new 40) "a" 1).rs.remaining) :=
  ⟨by simp [Printer.new_eq],
    (C6_prune_invariant (Printer.new 40) "a" 1 1 0
      (by simp [Printer.new_eq])).1⟩

/-- C7: when `render_break` takes the vertical branch (top frame is a
`Break` frame that is consistent or whose break does not fit), the output
gains exactly one newline — no indent spaces yet — and `pending_indent` is
set to the break's absolute indent `k`; the next `render_text` then writes
exactly `k` spaces immediately before its content and clears the pending
indent.  A further vertical break before any text would again append only
a newline (first conjunct applied to the unchanged stack), so no indent
spaces appear on lines that receive no text. -/
theorem C7_indent_after_newline (st : RState) (ind w : Nat) (c : Bool)
    (hframe : st.render_stack.head?.getD (RenderFrame.brk false)
      = RenderFrame.brk c)
    (hvert : c = true ∨ st.remaining < w) :
    (render_break st ind w).output = st.output ++ ['\n']
    ∧ (render_break st ind w).pending_indent = ind
    ∧ (render_break st ind w).render_stack = st.render_stack
    ∧ ∀ (s : String) (tw : Nat),
        (render_text (render_break st ind w) s tw).output
          = (st.output ++ ['\n']) ++ List.replicate ind ' ' ++ s.data
        ∧ (render_text (render_break st ind w) s tw).pending_indent = 0 := by
  have hbf := break_fits_of_brk_frame st w c hframe hvert
  rw [render_break_of_not_fits st ind w hbf]
  refine ⟨rfl, rfl, rfl, ?_⟩
  intro s tw
  rw [render_text_eq]
  exact ⟨rfl, rfl⟩

/-- Witness for C7: a consistent break frame, indent 2, then a text. -/
theorem C7_indent_after_newline_witness :
    (({ line_width := 40, output := [], remaining := 40, render_stack := [RenderFrame.brk true], pending_indent := 0 } : RState).render_stack.head?.getD (RenderFrame.brk false) = RenderFrame.brk true)
    ∧ (render_text (render_break ({ line_width := 40, output := [], remaining := 40, render_stack := [RenderFrame.brk true], pending_indent := 0 } : RState) 2 1) "a" 1).output
        = (([] ++ ['\n']) ++ List.replicate 2 ' ' ++ "a".data) :=
  ⟨by decide,
    ((C7_indent_after_newline ({ line_width := 40, output := [], remaining := 40, render_stack := [RenderFrame.brk true], pending_indent := 0 } : RState) 2 1 true (by decide) (Or.inl rfl)).2.2.2 "a" 1).1⟩

/-- C8: with the current top of the indent stack being `top`,
`scan_break(size, indent_delta)` (1) fails — the `expect` panic — exactly
when `top + indent_delta < 0`; (2) on success advances `position` by
`size` and leaves the indent stack unchanged; (3) stores the absolute
indent `(top + indent_delta).toNat`, computed at scan time, inside the
queued `Break` token (frozen there as a plain number, so later pushes or
pops of the indent stack cannot affect it); (4) with a non-empty deque the
token is appended to the back group before pruning runs. -/
theorem C8_scan_break_indent (p : Printer) (size : Nat) (d top : Int)
    (h : p.indent.head? = some top) :
    (scan_break p size d = none ↔ top + d < 0)
    ∧ (∀ p', scan_break p size d = some p' →
        p'.position = p.position + size ∧ p'.indent = p.indent)
    ∧ (0 ≤ top + d →
        scan_break p size d = some (scan p size (Token.brk (top + d).toNat)))
    ∧ (0 ≤ top + d → p.dq ≠ [] →
        scan_break p size d =
          some (prune { p with position := p.position + size,
                               dq := addToBack p.dq
                                 (Token.brk (top + d).toNat) size })) := by
  refine ⟨scan_break_eq_none_iff p size d top h, ?_, ?_, ?_⟩
  · intro p' hp'
    by_cases hneg : top + d < 0
    · rw [(scan_break_eq_none_iff p size d top h).mpr hneg] at hp'
      exact absurd hp' (by simp)
    · rw [scan_break_eq_some p size d top h (by omega)] at hp'
      injection hp' with hp'
      rw [← hp']
      exact ⟨scan_position p size _, scan_indent p size _⟩
  · intro hnn
    exact scan_break_eq_some p size d top h hnn
  · intro hnn hdq
    rw [scan_break_eq_some p size d top h hnn,
      scan_eq_of_ne_nil p size _ hdq]

/-- Witness for C8: fresh printer (indent stack top `0`), break of size 2
with delta 1. -/
theorem C8_scan_break_indent_witness :
    (Printer.new 40).indent.head? = some 0
    ∧ (0 ≤ (0 : Int) + 1 →
        scan_break (Printer.new 40) 2 1
          = some (scan (Printer.new 40) 2 (Token.brk ((0 : Int) + 1).toNat))) :=
  ⟨by decide, (C8_scan_break_indent (Printer.new 40) 2 1 0 (by decide)).2.2.1⟩

set_option maxRecDepth 4000 in
/-- C9 counterexample: the claim compares the concatenated non-whitespace
runs of the output against the *unfiltered* concatenation of the `content`
strings.  A content string containing a space refutes that equality:
`scan_text("a b", 3)` at width 40 outputs `"a b"`, whose non-whitespace
runs concatenate to `"ab" ≠ "a b"`. -/
theorem C9_counterexample :
    runFinish 40 [Directive.dText "a b" 3] = some "a b".data
    ∧ List.filter nonWs "a b".data ≠ "a b".data := by
  refine ⟨by decide, by decide⟩

/-- C9 (amended): for every directive sequence that runs to completion,
the non-whitespace, non-newline characters of the final output are
exactly the non-whitespace, non-newline characters of the `scan_text`
contents concatenated in order — no text is lost, duplicated or
reordered.  (The claim's literal equality, without filtering the
right-hand side, additionally needs every content string to be free of
spaces and newlines, as the counterexample shows.) -/
theorem C9_text_preservation (lw : Nat) (ds : List Directive)
    (out : List Char) (h : runFinish lw ds = some out) :
    out.filter nonWs = (directiveTexts ds).filter nonWs := by
  unfold runFinish at h
  rcases hr : run (Printer.new lw) ds with _ | p
  · rw [hr] at h
    exact absurd h (by simp)
  · rw [hr] at h
    dsimp only at h
    obtain ⟨hout, hdq⟩ := finish_eq_some p out h
    have hbal := run_filter ds (Printer.new lw) p hr
    have hend := scan_end_filter p
    rw [hdq] at hend
    rw [Printer.new_eq] at hbal
    simp only [dqTexts, tokensTexts, List.filter_nil, List.append_nil,
      List.nil_append, List.filter_append] at hbal hend
    rw [hout, hend, hbal]

/-- Witness for C9: one text directive with whitespace-free content. -/
theorem C9_text_preservation_witness :
    runFinish 40 [Directive.dText "ab" 2] = some "ab".data
    ∧ List.filter nonWs "ab".data
        = (directiveTexts [Directive.dText "ab" 2]).filter nonWs :=
  ⟨by decide,
    C9_text_preservation 40 [Directive.dText "ab" 2] "ab".data (by decide)⟩

/-- C10: for the `String` sink, the overridden `write_spaces`
(`reserve` + `extend(iter::repeat(' ').take(n))`) produces from any prior
buffer exactly the same buffer as the trait's default implementation
`write_str(&" ".repeat(n))`, namely the buffer extended by `n` spaces
(both are total: the `String` sink never fails). -/
theorem C10_write_spaces_equiv (b : List Char) (n : Nat) :
    write_spaces b n = write_spaces_default b n
    ∧ write_spaces b n = b ++ List.replicate n ' ' := by
  constructor
  · rw [write_spaces_eq, write_spaces_default, write_str,
      str_repeat_space_data]
  · exact write_spaces_eq b n

end Elegance
